import Mathlib

/-!
Verification of the spf-digraph resolver (`src/gen.py`).

The Python module resolves SPF TXT records recursively, emitting
`enter`/`exit` traversal events from a generator (`Resolver.__call__`),
folds those events into a tree of `Node`s with a stack machine
(`TreeBuilder.build`), and offers tree operations (`Tree.bigrams`,
`Tree.each_node`, `Node.to_obj`).

Modelling conventions:
* The external DNS collaborator `query(domain, "TXT")` is a parameter
  `dns : Dns`; `none` models a raised `DNSException`, `some records`
  models a successful answer.  A DNS answer object's `to_text()` is the
  record's textual form, so records are modelled directly as strings and
  `to_text` is the identity.
* The recursion of `Resolver.__call__` has no a-priori depth bound in
  Python; the model takes a fuel argument that only bounds recursion
  depth (fuel 0 produces no events).  Every terminating Python run is
  `call` at any fuel at least the run's recursion depth, and the safety
  properties proved below hold for every fuel.
* Python sets of strings are modelled as `List String` used only through
  membership; `set.add` on an element known to be absent is a cons.
  In-place mutation of the shared `visited` set is explicit state
  threading (each function returns the set's final contents).
* `logger` calls are side effects invisible to callers and are omitted.
-/

namespace SpfDigraph

/-- The two event kinds yielded by `Resolver.__call__`. -/
inductive EvType where
  | enter
  | exit
deriving DecidableEq, Repr

/-- One yielded event `(typ, name)`. -/
abbrev Event := EvType × String

/-- The DNS TXT collaborator: `none` models a `DNSException`,
`some records` a successful lookup whose records are given by their
`to_text()` form. -/
abbrev Dns := String → Option (List String)

/-- `find(f, itr, default=None)` from the source: first element of `itr`
satisfying `f`, else the default `None`. -/
def find {α : Type _} (f : α → Bool) : List α → Option α
  | [] => none
  | x :: xs => if f x then some x else find f xs

/-- Python's `s.strip(c)` for a single character: remove every leading and
trailing occurrence of `c`. -/
def pyStrip (c : Char) (s : String) : String :=
  String.mk (((s.toList.dropWhile (fun x => x = c)).reverse.dropWhile
    (fun x => x = c)).reverse)

/-- Python's `s.startswith(pre)` (over the character list, so that it
computes by kernel reduction). -/
def pyStartsWith (s pre : String) : Bool :=
  pre.toList.isPrefixOf s.toList

/-- Python's `s.split(sep)` for a one-character separator: split at every
occurrence, keeping empty pieces (`''.split(':') == ['']`,
`'include:'.split(':') == ['include', '']`). -/
def pySplitOn (sep : Char) (s : String) : List String :=
  (s.toList.foldr
    (fun ch acc =>
      if ch = sep then [] :: acc
      else match acc with
        | [] => [[ch]]
        | g :: gs => (ch :: g) :: gs)
    [[]]).map String.mk

/-- Python's no-argument `str.split()`: split on runs of whitespace,
discarding empty pieces. -/
def pySplitWs (s : String) : List String :=
  let groups := s.toList.foldr
    (fun ch acc =>
      if ch.isWhitespace then [] :: acc
      else match acc with
        | [] => [[ch]]
        | g :: gs => (ch :: g) :: gs)
    []
  (groups.filter (fun g => g ≠ [])).map String.mk

/-- `Resolver.to_text`: records are already modelled by their text. -/
def to_text (x : String) : String := x

/-- `Resolver.is_spf`: `x.strip('"').startswith('v=spf1')`. -/
def is_spf (x : String) : Bool := pyStartsWith (pyStrip '"' x) "v=spf1"

/-- `Resolver.is_include`: `record.startswith('include:')`. -/
def is_include (record : String) : Bool := pyStartsWith record "include:"

/-- The loop `for record in filter(self.is_include, terms)` of
`Resolver.__call__`, with the recursive call abstracted as `next`:
for each include term, `name = record.split(':')[1]` (the term starts
with `"include:"`, so the split always has a second field; `getD`'s
default is therefore never used) and the nested events are re-yielded in
order while the visited set is threaded through. -/
def resolveIncludes (next : String → List String → List Event × List String) :
    List String → List String → List Event × List String
  | [], visited => ([], visited)
  | record :: rest, visited =>
    let name := (pySplitOn ':' record).getD 1 ""
    let r1 := next name visited
    let r2 := resolveIncludes next rest r1.2
    (r1.1 ++ r2.1, r2.2)

/-- `Resolver.__call__(domain, visited=None)`.  The second component is
the final contents of the set the body operated on.  The body starts
with `if not visited: visited = set()`: both `None` and an explicitly
passed empty set are replaced by a fresh empty set (Python truthiness),
which is why the argument is an `Option` and the guard also tests
emptiness.  On a successful lookup the first record satisfying `is_spf`
(default `''`) is split into whitespace terms and every `include:` term
is resolved recursively; on `DNSException` the error is logged and
swallowed, leaving just the `enter`/`exit` pair. -/
def call (dns : Dns) : Nat → String → Option (List String) → List Event × List String
  | 0, _, arg => ([], arg.getD [])
  | fuel+1, domain, arg =>
    let visited : List String :=
      match arg with
      | none => []
      | some s => if s = [] then [] else s
    if domain ∈ visited then ([], visited)
    else
      let visited1 := domain :: visited
      match dns domain with
      | some answers =>
        let res := answers.map to_text
        let terms := pySplitWs ((find is_spf res).getD "")
        let r := resolveIncludes (fun n w => call dns fuel n (some w))
          (terms.filter is_include) visited1
        ((EvType.enter, domain) :: r.1 ++ [(EvType.exit, domain)], r.2)
      | none =>
        ([(EvType.enter, domain), (EvType.exit, domain)], visited1)

/-! ### Unfolding equations for `call` -/

theorem call_zero (dns : Dns) (d : String) (arg : Option (List String)) :
    call dns 0 d arg = ([], arg.getD []) := rfl

/-- The truthiness guard `if not visited: visited = set()` does not change
the *contents* of the set the body works with (only its identity). -/
theorem emptyGuard (v : List String) :
    (if v = [] then ([] : List String) else v) = v := by
  by_cases h : v = [] <;> simp [h]

theorem call_succ (dns : Dns) (fuel : Nat) (d : String) (v : List String) :
    call dns (fuel+1) d (some v) =
      if d ∈ v then ([], v)
      else
        match dns d with
        | some answers =>
          let r := resolveIncludes (fun n w => call dns fuel n (some w))
            ((pySplitWs ((find is_spf (answers.map to_text)).getD "")).filter is_include)
            (d :: v)
          ((EvType.enter, d) :: r.1 ++ [(EvType.exit, d)], r.2)
        | none =>
          ([(EvType.enter, d), (EvType.exit, d)], d :: v) := by
  rw [call.eq_def]
  simp only [emptyGuard]

/-- Passing no `visited` argument and passing an explicitly empty set run
the body on a fresh empty set either way. -/
theorem call_none_eq_some_nil (dns : Dns) (fuel : Nat) (d : String) :
    call dns fuel d none = call dns fuel d (some []) := by
  cases fuel <;> rfl

theorem call_succ_mem (dns : Dns) (fuel : Nat) {d : String} {v : List String}
    (h : d ∈ v) : call dns (fuel+1) d (some v) = ([], v) := by
  rw [call_succ]; simp [h]

theorem call_succ_fail (dns : Dns) (fuel : Nat) {d : String} {v : List String}
    (h : d ∉ v) (hdns : dns d = none) :
    call dns (fuel+1) d (some v) =
      ([(EvType.enter, d), (EvType.exit, d)], d :: v) := by
  rw [call_succ]; simp [h, hdns]

theorem call_succ_found (dns : Dns) (fuel : Nat) {d : String} {v : List String}
    {answers : List String} (h : d ∉ v) (hdns : dns d = some answers) :
    call dns (fuel+1) d (some v) =
      ((EvType.enter, d) ::
          (resolveIncludes (fun n w => call dns fuel n (some w))
            ((pySplitWs ((find is_spf (answers.map to_text)).getD "")).filter is_include)
            (d :: v)).1
        ++ [(EvType.exit, d)],
       (resolveIncludes (fun n w => call dns fuel n (some w))
            ((pySplitWs ((find is_spf (answers.map to_text)).getD "")).filter is_include)
            (d :: v)).2) := by
  rw [call_succ]; simp [h, hdns]

/-! ### Enter and exit projections of an event list -/

/-- Domains of the `enter` events of an event list, in order. -/
def enters (evs : List Event) : List String :=
  evs.filterMap (fun e => match e.1 with | .enter => some e.2 | .exit => none)

/-- Domains of the `exit` events of an event list, in order. -/
def exits (evs : List Event) : List String :=
  evs.filterMap (fun e => match e.1 with | .enter => none | .exit => some e.2)

@[simp] theorem enters_nil : enters [] = [] := rfl

@[simp] theorem exits_nil : exits [] = [] := rfl

@[simp] theorem enters_cons_enter (d : String) (l : List Event) :
    enters ((EvType.enter, d) :: l) = d :: enters l := rfl

@[simp] theorem enters_cons_exit (d : String) (l : List Event) :
    enters ((EvType.exit, d) :: l) = enters l := rfl

@[simp] theorem exits_cons_enter (d : String) (l : List Event) :
    exits ((EvType.enter, d) :: l) = exits l := rfl

@[simp] theorem exits_cons_exit (d : String) (l : List Event) :
    exits ((EvType.exit, d) :: l) = d :: exits l := rfl

@[simp] theorem enters_append (l₁ l₂ : List Event) :
    enters (l₁ ++ l₂) = enters l₁ ++ enters l₂ :=
  List.filterMap_append _ _ _

@[simp] theorem exits_append (l₁ l₂ : List Event) :
    exits (l₁ ++ l₂) = exits l₁ ++ exits l₂ :=
  List.filterMap_append _ _ _

/-! ### The visited set after a call -/

theorem resolveIncludes_visited
    (next : String → List String → List Event × List String)
    (h : ∀ d v, (next d v).2 = (enters (next d v).1).reverse ++ v) :
    ∀ (rs : List String) (v : List String),
      (resolveIncludes next rs v).2 =
        (enters (resolveIncludes next rs v).1).reverse ++ v := by
  intro rs
  induction rs with
  | nil => intro v; simp [resolveIncludes]
  | cons r rest ih =>
    intro v
    simp only [resolveIncludes, enters_append, List.reverse_append]
    rw [ih, h]
    simp [List.append_assoc]

/-- The final contents of the visited set are exactly the entered domains
(most recent first) on top of the initial contents. -/
theorem call_visited (dns : Dns) :
    ∀ (fuel : Nat) (d : String) (v : List String),
      (call dns fuel d (some v)).2 =
        (enters (call dns fuel d (some v)).1).reverse ++ v := by
  intro fuel
  induction fuel with
  | zero => intro d v; simp [call_zero]
  | succ fuel ih =>
    intro d v
    by_cases hd : d ∈ v
    · rw [call_succ_mem dns fuel hd]; simp
    · cases hdns : dns d with
      | none => rw [call_succ_fail dns fuel hd hdns]; simp
      | some answers =>
        rw [call_succ_found dns fuel hd hdns]
        rw [resolveIncludes_visited _ (fun d v => ih d v)]
        simp

/-! ### Entered domains are fresh and pairwise distinct -/

theorem resolveIncludes_fresh
    (next : String → List String → List Event × List String)
    (hvis : ∀ d v, (next d v).2 = (enters (next d v).1).reverse ++ v)
    (h : ∀ d v, (∀ x ∈ enters (next d v).1, x ∉ v) ∧
          (enters (next d v).1).Nodup) :
    ∀ (rs : List String) (v : List String),
      (∀ x ∈ enters (resolveIncludes next rs v).1, x ∉ v) ∧
        (enters (resolveIncludes next rs v).1).Nodup := by
  intro rs
  induction rs with
  | nil => intro v; simp [resolveIncludes]
  | cons r rest ih =>
    intro v
    simp only [resolveIncludes, enters_append]
    set nm := (pySplitOn ':' r).getD 1 "" with hnm
    obtain ⟨h1f, h1n⟩ := h nm v
    obtain ⟨h2f, h2n⟩ := ih (next nm v).2
    have hsub : ∀ x ∈ enters (next nm v).1, x ∈ (next nm v).2 := by
      intro x hx
      rw [hvis]
      exact List.mem_append_left _ (List.mem_reverse.2 hx)
    constructor
    · intro x hx
      rcases List.mem_append.1 hx with hx1 | hx2
      · exact h1f x hx1
      · intro hxv
        exact h2f x hx2 (by rw [hvis]; exact List.mem_append_right _ hxv)
    · refine List.Nodup.append h1n h2n ?_
      intro x hx1 hx2
      exact h2f x hx2 (hsub x hx1)

/-- Every domain entered during a call was not yet visited, and no domain
is entered twice: the shared visited set makes enter names pairwise
distinct within one traversal. -/
theorem call_enters_fresh (dns : Dns) :
    ∀ (fuel : Nat) (d : String) (v : List String),
      (∀ x ∈ enters (call dns fuel d (some v)).1, x ∉ v) ∧
        (enters (call dns fuel d (some v)).1).Nodup := by
  intro fuel
  induction fuel with
  | zero => intro d v; simp [call_zero]
  | succ fuel ih =>
    intro d v
    by_cases hd : d ∈ v
    · rw [call_succ_mem dns fuel hd]; simp
    · cases hdns : dns d with
      | none =>
        rw [call_succ_fail dns fuel hd hdns]
        simp [hd]
      | some answers =>
        rw [call_succ_found dns fuel hd hdns]
        obtain ⟨hf, hn⟩ := resolveIncludes_fresh _
          (fun d v => call_visited dns fuel d v) (fun d v => ih d v) _ (d :: v)
        simp only [enters_cons_enter, enters_append, enters_cons_exit,
          exits_cons_exit, List.append_nil]
        constructor
        · intro x hx
          rcases List.mem_cons.1 hx with hx | hx
          · simpa [hx] using hd
          · have := hf x (by simpa using hx)
            intro hxv
            exact this (List.mem_cons_of_mem _ hxv)
        · refine List.Nodup.cons ?_ (by simpa using hn)
          intro hdmem
          exact hf d (by simpa using hdmem) (List.mem_cons_self _ _)

/-! ### Parenthesization (Dyck structure) of the event stream -/

/-- Correct parenthesization of an event stream: it is a sequence of
complete traversal blocks, every block being an `enter d`, the fully
interleaved blocks of its nested traversals, and the matching `exit d` —
nested include traversals close before the parent's own exit. -/
inductive Dyck : List Event → Prop where
  | nil : Dyck []
  | node (d : String) {inner rest : List Event} :
      Dyck inner → Dyck rest →
      Dyck ((EvType.enter, d) :: inner ++ (EvType.exit, d) :: rest)

theorem Dyck.append {l₁ l₂ : List Event} (h₁ : Dyck l₁) (h₂ : Dyck l₂) :
    Dyck (l₁ ++ l₂) := by
  induction h₁ with
  | nil => simpa using h₂
  | node d hI hR ihI ihR =>
    have := Dyck.node d hI (ihR)
    simpa [List.append_assoc] using this

theorem resolveIncludes_dyck
    (next : String → List String → List Event × List String)
    (h : ∀ d v, Dyck (next d v).1) :
    ∀ (rs : List String) (v : List String),
      Dyck (resolveIncludes next rs v).1 := by
  intro rs
  induction rs with
  | nil => intro v; exact Dyck.nil
  | cons r rest ih =>
    intro v
    exact Dyck.append (h _ _) (ih _)

theorem call_dyck (dns : Dns) :
    ∀ (fuel : Nat) (d : String) (arg : Option (List String)),
      Dyck (call dns fuel d arg).1 := by
  intro fuel
  induction fuel with
  | zero => intro d arg; exact Dyck.nil
  | succ fuel ih =>
    intro d arg
    rcases arg with _ | v
    · rw [call_none_eq_some_nil]
      exact call_dyck_some dns fuel ih d []
    · exact call_dyck_some dns fuel ih d v
where
  call_dyck_some (dns : Dns) (fuel : Nat)
      (ih : ∀ d arg, Dyck (call dns fuel d arg).1) (d : String)
      (v : List String) : Dyck (call dns (fuel+1) d (some v)).1 := by
    by_cases hd : d ∈ v
    · rw [call_succ_mem dns fuel hd]; exact Dyck.nil
    · cases hdns : dns d with
      | none =>
        rw [call_succ_fail dns fuel hd hdns]
        exact Dyck.node d Dyck.nil Dyck.nil
      | some answers =>
        rw [call_succ_found dns fuel hd hdns]
        exact Dyck.node d
          (resolveIncludes_dyck _ (fun n w => ih n (some w)) _ _) Dyck.nil

/-- A Dyck stream has as many `enter` events as `exit` events. -/
theorem Dyck.enters_length {evs : List Event} (h : Dyck evs) :
    (enters evs).length = (exits evs).length := by
  induction h with
  | nil => rfl
  | node d hI hR ihI ihR => simp; omega

theorem prefix_append_cases {α : Type _} {p xs ys : List α}
    (h : p <+: xs ++ ys) : p <+: xs ∨ ∃ q, p = xs ++ q ∧ q <+: ys := by
  induction xs generalizing p with
  | nil => exact Or.inr ⟨p, rfl, by simpa using h⟩
  | cons a xs ih =>
    cases p with
    | nil => exact Or.inl List.nil_prefix
    | cons b p =>
      rw [List.cons_append, List.cons_prefix_cons] at h
      obtain ⟨rfl, h2⟩ := h
      rcases ih h2 with h3 | ⟨q, rfl, h4⟩
      · exact Or.inl ((List.cons_prefix_cons).2 ⟨rfl, h3⟩)
      · exact Or.inr ⟨q, rfl, h4⟩

/-- In every prefix of a Dyck stream, exits never outnumber enters. -/
theorem Dyck.prefix_count {evs : List Event} (h : Dyck evs) :
    ∀ p, p <+: evs → (exits p).length ≤ (enters p).length := by
  induction h with
  | nil =>
    intro p hp
    rw [List.prefix_nil.1 hp]
    exact le_refl _
  | @node d inner rest hI hR ihI ihR =>
    intro p hp
    cases p with
    | nil => simp
    | cons e p' =>
      rw [List.cons_append, List.cons_prefix_cons] at hp
      obtain ⟨rfl, hp'⟩ := hp
      rcases prefix_append_cases hp' with h1 | ⟨q, rfl, hq⟩
      · have := ihI p' h1
        simp only [exits_cons_enter, enters_cons_enter, List.length_cons]
        omega
      · cases q with
        | nil =>
          have h1 := hI.enters_length
          simp only [List.append_nil, exits_cons_enter, enters_cons_enter,
            exits_append, enters_append, List.length_cons, List.length_append]
          omega
        | cons e' q' =>
          rw [List.cons_prefix_cons] at hq
          obtain ⟨rfl, hq'⟩ := hq
          have h1 := hI.enters_length
          have h2 := ihR q' hq'
          simp only [exits_cons_enter, enters_cons_enter, exits_append,
            enters_append, exits_cons_exit, enters_cons_exit,
            List.length_cons, List.length_append]
          omega

/-- Concrete DNS behavior where every lookup raises `DNSException`. -/
def dnsNone : Dns := fun _ => none

/-- C1: for every domain and every DNS behavior (and every recursion
budget), the event sequence of `Resolver.__call__(domain)` is correctly
parenthesized: as many `enter` as `exit` events, every prefix has at
least as many `enter` as `exit` events, and the stream has the `Dyck`
block structure in which each nested include traversal's complete
enter/exit pairs appear, in order, before the parent's own exit. -/
theorem resolver_events_parenthesized (dns : Dns) (fuel : Nat) (d : String) :
    (enters (call dns fuel d none).1).length =
      (exits (call dns fuel d none).1).length ∧
    (∀ p, p <+: (call dns fuel d none).1 →
      (exits p).length ≤ (enters p).length) ∧
    Dyck (call dns fuel d none).1 :=
  ⟨(call_dyck dns fuel d none).enters_length,
   (call_dyck dns fuel d none).prefix_count,
   call_dyck dns fuel d none⟩

/-- Witness for C1 at a concrete input, including one concrete strict
prefix for the prefix-count part. -/
theorem resolver_events_parenthesized_witness :
    (enters (call dnsNone 1 "x" none).1).length =
      (exits (call dnsNone 1 "x" none).1).length ∧
    (exits [((EvType.enter : EvType), "x")]).length ≤
      (enters [((EvType.enter : EvType), "x")]).length ∧
    Dyck (call dnsNone 1 "x" none).1 :=
  ⟨(resolver_events_parenthesized dnsNone 1 "x").1,
   (resolver_events_parenthesized dnsNone 1 "x").2.1
     [(EvType.enter, "x")] ⟨[(EvType.exit, "x")], rfl⟩,
   (resolver_events_parenthesized dnsNone 1 "x").2.2⟩

/-! ### `Node`, `Tree` and the stack-based `TreeBuilder` -/

/-- `Node` from the source: a `name`, an ordered list of `children`
(insertion order), and `children_names`, the set of child names used to
guard duplicate insertion.  The Python set is modelled as a list used
through membership; `to_obj`'s `list(children_names)` iteration order is
unspecified in Python and insertion order here. -/
inductive Node where
  | mk (name : String) (children : List Node) (children_names : List String)

def Node.name : Node → String
  | .mk n _ _ => n

def Node.children : Node → List Node
  | .mk _ c _ => c

def Node.children_names : Node → List String
  | .mk _ _ s => s

@[simp] theorem Node.name_mk (n : String) (cs : List Node) (cn : List String) :
    (Node.mk n cs cn).name = n := rfl

@[simp] theorem Node.children_mk (n : String) (cs : List Node) (cn : List String) :
    (Node.mk n cs cn).children = cs := rfl

@[simp] theorem Node.children_names_mk (n : String) (cs : List Node)
    (cn : List String) : (Node.mk n cs cn).children_names = cn := rfl

/-- `Node.add_child`: if `name` is not among `children_names`, append a
fresh `Node(name)` to `children`, add its name to `children_names` and
return it; otherwise return the existing child found by name.  The pair
is (the updated parent, the returned node); the `Option` is `none`
exactly when Python's `find` would return `None` (impossible while the
`children_names` invariant holds). -/
def Node.add_child (self : Node) (name : String) : Node × Option Node :=
  if name ∉ self.children_names then
    let node : Node := .mk name [] []
    (.mk self.name (self.children ++ [node]) (self.children_names ++ [name]),
     some node)
  else
    (self, find (fun x => x.name == name) self.children)

/-- `node.to_obj()`: the record `{'name': ..., 'children': list(children_names)}`. -/
def Node.to_obj (self : Node) : String × List String :=
  (self.name, self.children_names)

/-- `Tree` wraps the root node `head`. -/
structure Tree where
  head : Node

/-- Write a finished child back into its parent.  The Python builder
pushes the very object stored in the parent's `children`, so in-place
mutation of the child is visible through the parent; in this pure model
the stack holds the child's current value and, when the child is popped,
its final value replaces the parent's entry of the same name (the entry
is unique while the `children_names` invariant holds, so this is exactly
the aliasing). -/
def writeChild (child : Node) : Node → Node
  | .mk name children cnames =>
    .mk name
      (children.map (fun x => if x.name = child.name then child else x))
      cnames

/-- One step of `TreeBuilder.build`'s event loop.  On `enter`: push
`stack[-1].add_child(name)` (or a fresh root when the stack is empty);
if `add_child`'s `find` returned `None` — unreachable while the
invariant holds — a placeholder is pushed where Python would push
`None`.  On `exit`: pop, sync the popped value into its parent, and set
`tree = Tree(popped)` (the source does this on *every* exit; the last
assignment wins).  An `exit` on an empty stack — where Python would
raise `IndexError`, unreachable for resolver streams by the prefix
property — leaves the state unchanged. -/
def buildStep (st : List Node × Option Tree) (ev : Event) :
    List Node × Option Tree :=
  match ev.1 with
  | .enter =>
    match st.1 with
    | [] => ([Node.mk ev.2 [] []], st.2)
    | top :: rest =>
      let r := top.add_child ev.2
      ((r.2.getD (Node.mk ev.2 [] [])) :: r.1 :: rest, st.2)
  | .exit =>
    match st.1 with
    | [] => st
    | child :: rest =>
      let rest' : List Node :=
        match rest with
        | [] => []
        | top :: more => writeChild child top :: more
      (rest', some (Tree.mk child))

/-- The whole event loop of `TreeBuilder.build`, from an empty stack. -/
def buildRun (evs : List Event) : List Node × Option Tree :=
  evs.foldl buildStep ([], none)

/-- `TreeBuilder.build(domain)`: run the resolver (with its default
`visited=None`) and fold the events into a tree. -/
def TreeBuilder.build (dns : Dns) (fuel : Nat) (domain : String) : Option Tree :=
  (buildRun (call dns fuel domain none).1).2

/-! ### Tree traversals -/

mutual

/-- `Tree.bigrams(node)` body: for each child, first the bigrams of the
child's subtree, then the `(parent, child)` pair (the source's
`if len(node.children)` guard is the loop over `children` itself). -/
def bigramsGo : Node → List (String × String)
  | .mk name children _ => bigramsKids name children

def bigramsKids (pname : String) : List Node → List (String × String)
  | [] => []
  | n :: rest => bigramsGo n ++ (pname, n.name) :: bigramsKids pname rest

end

/-- `Tree.bigrams(self, node=None)`: `if not node: node = self.head`
(a `Node` object is always truthy, so only `None` is replaced). -/
def Tree.bigrams (t : Tree) (argN : Option Node) : List (String × String) :=
  bigramsGo (match argN with | none => t.head | some n => n)

mutual

/-- `Tree.each_node` recursion, visited set threaded through.  The
top-level truthiness guard on `visited` lives in `Tree.each_node`. -/
def eachNodeGo : Node → List String → List Node × List String
  | node@(.mk _ children _), visited =>
    if node.name ∈ visited then ([], visited)
    else
      let v1 := node.name :: visited
      let r := eachNodeKids children v1
      (node :: r.1, r.2)

def eachNodeKids : List Node → List String → List Node × List String
  | [], visited => ([], visited)
  | n :: rest, visited =>
    let r1 := eachNodeGo n visited
    let r2 := eachNodeKids rest r1.2
    (r1.1 ++ r2.1, r2.2)

end

/-- `Tree.each_node(self, visited=None, node=None)` with its truthiness
guards: `None` or an empty set become a fresh set, `None` becomes
`self.head` (a `Node` is always truthy). -/
def Tree.each_node (t : Tree) (argV : Option (List String)) (argN : Option Node) :
    List Node × List String :=
  let visited : List String :=
    match argV with
    | none => []
    | some s => if s = [] then [] else s
  let node := match argN with | none => t.head | some n => n
  eachNodeGo node visited

/-- `Tree.to_json` without the JSON text encoding: the list of
`to_obj` records over `each_node()`. -/
def Tree.to_serializable (t : Tree) : List (String × List String) :=
  (t.each_node none none).1.map Node.to_obj

/-! ### C4: the cyclic include graph A -> B -> A -/

/-- Concrete DNS behavior with a cycle: `A` includes `B`, `B` includes
`A` (record texts as the abstract TXT collaborator returns them). -/
def dnsCyc : Dns := fun d =>
  if d = "A" then some ["v=spf1 include:B"]
  else if d = "B" then some ["v=spf1 include:A"]
  else none

theorem cyc_reentry (m : Nat) :
    call dnsCyc (m+1) "A" (some ["B", "A"]) = ([], ["B", "A"]) :=
  call_succ_mem dnsCyc m (by decide)

theorem cyc_B (m : Nat) :
    call dnsCyc (m+2) "B" (some ["A"]) =
      ([(EvType.enter, "B"), (EvType.exit, "B")], ["B", "A"]) := by
  rw [show m+2 = (m+1)+1 from rfl,
    call_succ_found dnsCyc (m+1) (by decide)
      (by decide : dnsCyc "B" = some ["v=spf1 include:A"])]
  rw [show (pySplitWs ((find is_spf (["v=spf1 include:A"].map to_text)).getD "")).filter
      is_include = ["include:A"] from by decide]
  simp only [resolveIncludes]
  rw [show (pySplitOn ':' "include:A").getD 1 "" = "A" from by decide]
  rw [cyc_reentry m]
  rfl

theorem cyc_A (m : Nat) :
    call dnsCyc (m+3) "A" none =
      ([(EvType.enter, "A"), (EvType.enter, "B"), (EvType.exit, "B"),
        (EvType.exit, "A")], ["B", "A"]) := by
  rw [call_none_eq_some_nil]
  rw [show m+3 = (m+2)+1 from rfl,
    call_succ_found dnsCyc (m+2) (by decide)
      (by decide : dnsCyc "A" = some ["v=spf1 include:B"])]
  rw [show (pySplitWs ((find is_spf (["v=spf1 include:B"].map to_text)).getD "")).filter
      is_include = ["include:B"] from by decide]
  simp only [resolveIncludes]
  rw [show (pySplitOn ':' "include:B").getD 1 "" = "B" from by decide]
  rw [cyc_B m]
  rfl

/-- C4: on the cyclic graph A includes B includes A, the traversal
terminates — at any recursion budget of at least the run's depth 3, the
result is one fixed event list — the re-entry of `A` (with `A` already
visited) produces no events at all, and the built tree is `A` with a
single child `B` whose children list is empty (in particular it does not
contain `A`). -/
theorem cycle_guard (n : Nat) :
    (call dnsCyc (n+3) "A" none).1 =
      [(EvType.enter, "A"), (EvType.enter, "B"), (EvType.exit, "B"),
       (EvType.exit, "A")] ∧
    (call dnsCyc (n+1) "A" (some ["B", "A"])).1 = [] ∧
    TreeBuilder.build dnsCyc (n+3) "A" =
      some ⟨Node.mk "A" [Node.mk "B" [] []] ["B"]⟩ := by
  refine ⟨by rw [cyc_A n], by rw [cyc_reentry n], ?_⟩
  show (buildRun (call dnsCyc (n+3) "A" none).1).2 = _
  rw [cyc_A n]
  rfl

/-! ### `find` characterization lemmas -/

theorem find_eq_none_iff {α : Type _} {f : α → Bool} {l : List α} :
    find f l = none ↔ ∀ x ∈ l, f x = false := by
  induction l with
  | nil => simp [find]
  | cons a l ih =>
    by_cases ha : f a = true
    · simp [find, ha]
    · have ha' : f a = false := by simpa using ha
      simp [find, ha', ih, List.forall_mem_cons]

theorem find_eq_some_iff {α : Type _} {f : α → Bool} {l : List α} {y : α} :
    find f l = some y ↔
      ∃ l₁ l₂, l = l₁ ++ y :: l₂ ∧ (∀ x ∈ l₁, f x = false) ∧ f y = true := by
  induction l with
  | nil => simp [find]
  | cons a l ih =>
    by_cases ha : f a = true
    · simp only [find, ha, if_true]
      constructor
      · intro h
        obtain rfl : a = y := Option.some.inj h
        exact ⟨[], l, rfl, by simp, ha⟩
      · rintro ⟨l₁, l₂, heq, hl₁, hy⟩
        cases l₁ with
        | nil =>
          rw [List.nil_append] at heq
          injection heq with h1 h2
          rw [h1]
        | cons b l₁ =>
          rw [List.cons_append] at heq
          injection heq with h1 h2
          have hb := hl₁ b (by simp)
          rw [← h1, ha] at hb
          cases hb
    · rw [show find f (a :: l) = if f a then some a else find f l from rfl,
        if_neg ha, ih]
      constructor
      · rintro ⟨l₁, l₂, rfl, hl₁, hy⟩
        refine ⟨a :: l₁, l₂, rfl, ?_, hy⟩
        intro x hx
        rcases List.mem_cons.1 hx with rfl | hx
        · simpa using ha
        · exact hl₁ x hx
      · rintro ⟨l₁, l₂, heq, hl₁, hy⟩
        cases l₁ with
        | nil =>
          rw [List.nil_append] at heq
          injection heq with h1 h2
          rw [h1, hy] at ha
          cases ha rfl
        | cons b l₁ =>
          rw [List.cons_append] at heq
          injection heq with h1 h2
          exact ⟨l₁, l₂, h2, fun x hx => hl₁ x (List.mem_cons_of_mem _ hx), hy⟩

/-! ### C3: failed or SPF-less lookups give a single-node tree -/

/-- C3: if the TXT lookup for `D` raises a DNS error, or none of its
records is a `v=spf1` record, and `D` is not already visited, then the
error (which is only logged, never propagated — the model returns
normally) leads to exactly the two events `enter D`, `exit D`, and
`build(D)` returns the single-node tree with root `D` and no children.
Recursion depth 1 suffices, hence the `fuel+1` budget. -/
theorem no_spf_single_node (dns : Dns) (fuel : Nat) (D : String)
    (v : List String) (hv : D ∉ v)
    (h : dns D = none ∨
      ∃ answers, dns D = some answers ∧
        find is_spf (answers.map to_text) = none) :
    (call dns (fuel+1) D (some v)).1 = [(EvType.enter, D), (EvType.exit, D)] ∧
    TreeBuilder.build dns (fuel+1) D = some ⟨Node.mk D [] []⟩ := by
  have events : ∀ w : List String, D ∉ w →
      (call dns (fuel+1) D (some w)).1 =
        [(EvType.enter, D), (EvType.exit, D)] := by
    intro w hw
    rcases h with hnone | ⟨answers, hsome, hfind⟩
    · rw [call_succ_fail dns fuel hw hnone]
    · rw [call_succ_found dns fuel hw hsome, hfind]
      simp [resolveIncludes, pySplitWs]
  refine ⟨events v hv, ?_⟩
  show (buildRun (call dns (fuel+1) D none).1).2 = _
  rw [call_none_eq_some_nil, events [] (by simp)]
  rfl

/-- Witness for C3 at the everywhere-failing DNS behavior. -/
theorem no_spf_single_node_witness :
    (call dnsNone 1 "x" (some [])).1 =
      [(EvType.enter, "x"), (EvType.exit, "x")] ∧
    TreeBuilder.build dnsNone 1 "x" = some ⟨Node.mk "x" [] []⟩ :=
  no_spf_single_node dnsNone 0 "x" [] (by simp) (Or.inl rfl)

/-! ### C6: idempotence of `add_child` -/

theorem find_append_of_none {α : Type _} {f : α → Bool} {l₁ l₂ : List α}
    (h : ∀ x ∈ l₁, f x = false) : find f (l₁ ++ l₂) = find f l₂ := by
  induction l₁ with
  | nil => rfl
  | cons a l ih =>
    have ha := h a (List.mem_cons_self a l)
    rw [List.cons_append,
      show find f (a :: (l ++ l₂)) = if f a then some a else find f (l ++ l₂)
        from rfl,
      if_neg (by simp [ha])]
    exact ih fun x hx => h x (List.mem_cons_of_mem _ hx)

theorem find_isSome_of_exists {α : Type _} {f : α → Bool} {l : List α}
    (h : ∃ x ∈ l, f x = true) : (find f l).isSome := by
  rcases h with ⟨x, hx, hfx⟩
  rw [← Option.ne_none_iff_isSome]
  intro hnone
  rw [find_eq_none_iff.1 hnone x hx] at hfx
  cases hfx

/-- C6: `add_child` is idempotent.  For a `Node` whose `children_names`
index agrees with its `children` (the invariant of C7), calling
`add_child(s)` twice returns the same child node both times (and it is a
real node, never Python's `None`), and the second call changes neither
`children` nor `children_names`. -/
theorem add_child_idempotent (nd : Node) (s : String)
    (h : ∀ x, x ∈ nd.children_names ↔ x ∈ nd.children.map Node.name) :
    ((nd.add_child s).1.add_child s).1 = (nd.add_child s).1 ∧
    ((nd.add_child s).1.add_child s).2 = (nd.add_child s).2 ∧
    ((nd.add_child s).2).isSome := by
  obtain ⟨nm, cs, cn⟩ := nd
  simp only [Node.children_names_mk, Node.children_mk] at h
  by_cases hs : s ∈ cn
  · have h1 : (Node.mk nm cs cn).add_child s =
        (Node.mk nm cs cn, find (fun x => x.name == s) cs) := by
      rw [Node.add_child, if_neg (not_not_intro (by simpa using hs))]
      rfl
    rw [h1]
    refine ⟨by rw [h1], by rw [h1], ?_⟩
    rcases List.mem_map.1 ((h s).1 hs) with ⟨c, hc, hcn⟩
    exact find_isSome_of_exists ⟨c, hc, by simp [hcn]⟩
  · have h1 : (Node.mk nm cs cn).add_child s =
        (Node.mk nm (cs ++ [Node.mk s [] []]) (cn ++ [s]),
         some (Node.mk s [] [])) := by
      rw [Node.add_child, if_pos (by simpa using hs)]
      rfl
    have hnone : ∀ x ∈ cs, (x.name == s) = false := by
      intro x hx
      have hne : x.name ≠ s := by
        intro hxs
        exact hs ((h s).2 (List.mem_map.2 ⟨x, hx, hxs⟩))
      simpa using hne
    have h2 : (Node.mk nm (cs ++ [Node.mk s [] []]) (cn ++ [s])).add_child s =
        (Node.mk nm (cs ++ [Node.mk s [] []]) (cn ++ [s]),
         some (Node.mk s [] [])) := by
      rw [Node.add_child,
        if_neg (not_not_intro (by simp)), Node.children_mk,
        find_append_of_none hnone]
      simp [find]
    rw [h1, h2]
    exact ⟨rfl, rfl, rfl⟩

/-- Witness for C6 on a concrete node. -/
theorem add_child_idempotent_witness :
    (((Node.mk "A" [] []).add_child "B").1.add_child "B").1 =
      ((Node.mk "A" [] []).add_child "B").1 ∧
    (((Node.mk "A" [] []).add_child "B").1.add_child "B").2 =
      ((Node.mk "A" [] []).add_child "B").2 ∧
    (((Node.mk "A" [] []).add_child "B").2).isSome :=
  add_child_idempotent (Node.mk "A" [] []) "B" (by simp)

/-! ### C7: the children/children_names invariant -/

/-- No string occurs twice. -/
def nodupB : List String → Bool
  | [] => true
  | x :: xs => !xs.contains x && nodupB xs

mutual

/-- The data-model invariant of `Node`, recursively: no two entries of
`children` share a name, `children_names` has no duplicates and is
exactly the set of the children's names, and every child satisfies the
invariant in turn. -/
def nodeOk : Node → Bool
  | .mk _ cs cn =>
    nodupB (cs.map Node.name) &&
    nodupB cn &&
    (cn.all (fun x => (cs.map Node.name).contains x) &&
     (cs.map Node.name).all (fun x => cn.contains x)) &&
    nodesOk cs

def nodesOk : List Node → Bool
  | [] => true
  | c :: cs => nodeOk c && nodesOk cs

end

theorem nodupB_iff {l : List String} : nodupB l = true ↔ l.Nodup := by
  induction l with
  | nil => simp [nodupB]
  | cons x xs ih => simp [nodupB, ih, List.elem_iff]

theorem nodesOk_iff {l : List Node} :
    nodesOk l = true ↔ ∀ c ∈ l, nodeOk c = true := by
  induction l with
  | nil => simp [nodesOk]
  | cons c cs ih => simp [nodesOk, ih]

theorem nodeOk_mk_iff {nm : String} {cs : List Node} {cn : List String} :
    nodeOk (.mk nm cs cn) = true ↔
      (cs.map Node.name).Nodup ∧ cn.Nodup ∧
        (∀ x, x ∈ cn ↔ x ∈ cs.map Node.name) ∧
        ∀ c ∈ cs, nodeOk c = true := by
  rw [nodeOk]
  simp only [Bool.and_eq_true, List.all_eq_true, nodupB_iff, nodesOk_iff,
    List.elem_iff]
  constructor
  · rintro ⟨⟨⟨hmap, hnd⟩, hsub1, hsub2⟩, hcs⟩
    exact ⟨hmap, hnd,
      fun x => ⟨fun hx => hsub1 x hx, fun hx => hsub2 x hx⟩, hcs⟩
  · rintro ⟨hmap, hnd, hiff, hcs⟩
    exact ⟨⟨⟨hmap, hnd⟩, fun x hx => (hiff x).1 hx,
      fun x hx => (hiff x).2 hx⟩, hcs⟩

theorem nodeOk_children {nd : Node} (h : nodeOk nd = true) :
    ∀ c ∈ nd.children, nodeOk c = true := by
  obtain ⟨nm, cs, cn⟩ := nd
  exact (nodeOk_mk_iff.1 h).2.2.2

/-- `add_child` preserves the invariant and returns an invariant child. -/
theorem add_child_ok {nd : Node} (s : String) (h : nodeOk nd = true) :
    nodeOk (nd.add_child s).1 = true ∧
    ∀ c, (nd.add_child s).2 = some c → nodeOk c = true := by
  obtain ⟨nm, cs, cn⟩ := nd
  obtain ⟨hmap, hnd, hiff, hcs⟩ := nodeOk_mk_iff.1 h
  by_cases hs : s ∈ cn
  · rw [Node.add_child, if_neg (not_not_intro (by simpa using hs))]
    refine ⟨h, ?_⟩
    intro c hc
    obtain ⟨l₁, l₂, heq, -, -⟩ := find_eq_some_iff.1 hc
    refine hcs c ?_
    have hmem : c ∈ l₁ ++ c :: l₂ := by simp
    rw [← heq] at hmem
    simpa using hmem
  · rw [Node.add_child, if_pos (by simpa using hs)]
    simp only [Node.name_mk, Node.children_mk, Node.children_names_mk]
    have hok : nodeOk (Node.mk s [] []) = true := by
      rw [nodeOk_mk_iff]; simp
    refine ⟨?_, fun c hc => by
      obtain rfl : Node.mk s [] [] = c := Option.some.inj hc
      exact hok⟩
    rw [nodeOk_mk_iff]
    refine ⟨?_, ?_, ?_, ?_⟩
    · rw [List.map_append]
      refine List.Nodup.append hmap (by simp) ?_
      intro x hx hxs
      simp only [List.map_cons, List.map_nil, Node.name_mk,
        List.mem_singleton] at hxs
      rw [hxs] at hx
      exact hs ((hiff s).2 hx)
    · refine List.Nodup.append hnd (by simp) ?_
      intro x hx hxs
      rw [List.mem_singleton.1 hxs] at hx
      exact hs hx
    · intro x
      rw [List.map_append, List.mem_append, List.mem_append]
      simp only [List.map_cons, List.map_nil, Node.name_mk,
        List.mem_singleton]
      constructor
      · rintro (hx | rfl)
        · exact Or.inl ((hiff x).1 hx)
        · exact Or.inr rfl
      · rintro (hx | rfl)
        · exact Or.inl ((hiff x).2 hx)
        · exact Or.inr rfl
    · intro c hc
      rcases List.mem_append.1 hc with hc | hc
      · exact hcs c hc
      · rw [List.mem_singleton.1 hc]
        exact hok

/-- `writeChild` (the pop-time sync of the aliased child) preserves the
invariant. -/
theorem writeChild_ok {child nd : Node} (hc : nodeOk child = true)
    (hn : nodeOk nd = true) : nodeOk (writeChild child nd) = true := by
  obtain ⟨nm, cs, cn⟩ := nd
  obtain ⟨hmap, hnd, hiff, hcs⟩ := nodeOk_mk_iff.1 hn
  rw [writeChild, nodeOk_mk_iff]
  have hnames : (cs.map (fun x => if x.name = child.name then child else x)).map
      Node.name = cs.map Node.name := by
    rw [List.map_map]
    refine List.map_congr_left ?_
    intro x _
    by_cases hx : x.name = child.name
    · simp [hx]
    · simp [hx]
  refine ⟨by rw [hnames]; exact hmap, hnd, by rw [hnames]; exact hiff, ?_⟩
  intro c hc'
  rcases List.mem_map.1 hc' with ⟨x, hx, rfl⟩
  by_cases hxn : x.name = child.name
  · simpa [hxn] using hc
  · simpa [hxn] using hcs x hx

/-- One `buildStep` preserves invariance of every stack entry and of the
current tree. -/
theorem buildStep_ok {st : List Node × Option Tree} {ev : Event}
    (hstack : ∀ n ∈ st.1, nodeOk n = true)
    (htree : ∀ t, st.2 = some t → nodeOk t.head = true) :
    (∀ n ∈ (buildStep st ev).1, nodeOk n = true) ∧
    (∀ t, (buildStep st ev).2 = some t → nodeOk t.head = true) := by
  obtain ⟨stack, tr⟩ := st
  obtain ⟨typ, nm⟩ := ev
  cases typ with
  | enter =>
    cases stack with
    | nil =>
      refine ⟨?_, htree⟩
      intro n hn
      rw [List.mem_singleton.1 hn, nodeOk_mk_iff]
      simp
    | cons top rest =>
      have htop := hstack top (List.mem_cons_self _ _)
      obtain ⟨h1, h2⟩ := add_child_ok nm htop
      refine ⟨?_, htree⟩
      intro n hn
      rcases List.mem_cons.1 hn with rfl | hn
      · cases hfind : (top.add_child nm).2 with
        | none => simp [buildStep, hfind, nodeOk_mk_iff]
        | some c => simpa [buildStep, hfind] using h2 c hfind
      · rcases List.mem_cons.1 hn with rfl | hn
        · exact h1
        · exact hstack _ (List.mem_cons_of_mem _ hn)
  | exit =>
    cases stack with
    | nil => exact ⟨hstack, htree⟩
    | cons child rest =>
      have hchild := hstack child (List.mem_cons_self _ _)
      cases rest with
      | nil =>
        refine ⟨by simp [buildStep], ?_⟩
        intro t ht
        obtain rfl : Tree.mk child = t := Option.some.inj ht
        exact hchild
      | cons top more =>
        have htop := hstack top (List.mem_cons_of_mem _ (List.mem_cons_self _ _))
        constructor
        · intro n hn
          rcases List.mem_cons.1 hn with rfl | hn
          · exact writeChild_ok hchild htop
          · exact hstack n
              (List.mem_cons_of_mem _ (List.mem_cons_of_mem _ hn))
        · intro t ht
          obtain rfl : Tree.mk child = t := Option.some.inj ht
          exact hchild

theorem buildRun_ok (evs : List Event) :
    (∀ n ∈ (buildRun evs).1, nodeOk n = true) ∧
    (∀ t, (buildRun evs).2 = some t → nodeOk t.head = true) := by
  rw [buildRun]
  generalize hst : (([], none) : List Node × Option Tree) = st
  have h0 : (∀ n ∈ st.1, nodeOk n = true) ∧
      (∀ t, st.2 = some t → nodeOk t.head = true) := by
    rw [← hst]; exact ⟨by simp, by simp⟩
  clear hst
  induction evs generalizing st with
  | nil => exact h0
  | cons e evs ih =>
    rw [List.foldl_cons]
    exact ih _ (buildStep_ok h0.1 h0.2)

/-- C7: every `Node` the program builds satisfies the invariant — no two
entries of `children` share a name and `children_names` is exactly the
set of those names, recursively — and every operation preserves it:
`Node.__init__` (always called with no children) establishes it,
`add_child` preserves it on the parent and returns an invariant child,
and `TreeBuilder.build`'s event loop (over any event sequence) keeps
every stack node and the resulting tree invariant. -/
theorem node_invariant_preserved :
    (∀ s, nodeOk (Node.mk s [] []) = true) ∧
    (∀ nd s, nodeOk nd = true →
      nodeOk (nd.add_child s).1 = true ∧
      ∀ c, (nd.add_child s).2 = some c → nodeOk c = true) ∧
    (∀ evs t, (buildRun evs).2 = some t → nodeOk t.head = true) :=
  ⟨fun s => by rw [nodeOk_mk_iff]; simp,
   fun _ s h => add_child_ok s h,
   fun evs => (buildRun_ok evs).2⟩

/-- Witness for C7: the parts with hypotheses applied at a concrete node
and a concrete event sequence. -/
theorem node_invariant_preserved_witness :
    nodeOk ((Node.mk "A" [] []).add_child "B").1 = true ∧
    ∀ t, (buildRun [(EvType.enter, "r"), (EvType.exit, "r")]).2 = some t →
      nodeOk t.head = true :=
  ⟨(node_invariant_preserved.2.1 (Node.mk "A" [] []) "B"
      (node_invariant_preserved.1 "A")).1,
   node_invariant_preserved.2.2 [(EvType.enter, "r"), (EvType.exit, "r")]⟩

/-! ### Auxiliary enumerations over a `Node` tree -/

mutual

/-- All names in a subtree, in pre-order. -/
def treeNames : Node → List String
  | .mk n cs _ => n :: treeNamesList cs

def treeNamesList : List Node → List String
  | [] => []
  | c :: cs => treeNames c ++ treeNamesList cs

end

mutual

/-- All nodes of a subtree, in pre-order. -/
def allNodes : Node → List Node
  | .mk n cs cn => Node.mk n cs cn :: allNodesList cs

def allNodesList : List Node → List Node
  | [] => []
  | c :: cs => allNodes c ++ allNodesList cs

end

mutual

/-- The parent-child edges of a tree, parent named first (the notion of
"every parent-child edge" from the specification of `bigrams`). -/
def edgesOf : Node → List (String × String)
  | .mk nm cs _ => cs.map (fun c => (nm, c.name)) ++ edgesOfList cs

def edgesOfList : List Node → List (String × String)
  | [] => []
  | c :: cs => edgesOf c ++ edgesOfList cs

end

/-! ### C5: `bigrams` covers every edge, in post-order -/

theorem bigramsKids_join (pn : String) (cs : List Node) :
    bigramsKids pn cs =
      (cs.map (fun c => bigramsGo c ++ [(pn, c.name)])).flatten := by
  induction cs with
  | nil => simp [bigramsKids]
  | cons c rest ih => simp [bigramsKids, ih]

mutual

theorem bigramsGo_mem (nd : Node) (e : String × String) :
    e ∈ bigramsGo nd ↔ e ∈ edgesOf nd := by
  obtain ⟨nm, cs, cn⟩ := nd
  rw [bigramsGo, edgesOf, bigramsKids_mem nm cs e]

theorem bigramsKids_mem (pn : String) (cs : List Node) (e : String × String) :
    e ∈ bigramsKids pn cs ↔
      e ∈ cs.map (fun c => (pn, c.name)) ++ edgesOfList cs := by
  cases cs with
  | nil => simp [bigramsKids, edgesOfList]
  | cons c rest =>
    rw [bigramsKids, edgesOfList]
    simp only [List.mem_append, List.mem_cons, List.map_cons,
      bigramsGo_mem c e, bigramsKids_mem pn rest e, List.mem_append]
    tauto

end

/-- The concrete 3-node chain A -> B -> C. -/
def chainTree : Tree :=
  ⟨Node.mk "A" [Node.mk "B" [Node.mk "C" [] []] ["C"]] ["B"]⟩

/-- C5: `bigrams` yields pairs covering exactly the parent-child edges
of the tree; each node's output is, child by child, the child subtree's
edges followed by the edge linking that child to the node (post-order);
and on the chain with edges {(A,B), (B,C)} the yielded set is exactly
{("A","B"), ("B","C")}. -/
theorem bigrams_cover_edges (t : Tree) :
    (∀ e, e ∈ t.bigrams none ↔ e ∈ edgesOf t.head) ∧
    (∀ nm cs cn, bigramsGo (Node.mk nm cs cn) =
      (cs.map (fun c => bigramsGo c ++ [(nm, c.name)])).flatten) ∧
    chainTree.bigrams none = [("B", "C"), ("A", "B")] ∧
    (∀ e, e ∈ chainTree.bigrams none ↔ e = ("A", "B") ∨ e = ("B", "C")) := by
  have hchain : chainTree.bigrams none = [("B", "C"), ("A", "B")] := by
    show bigramsGo chainTree.head = _
    rw [chainTree]
    simp [bigramsGo, bigramsKids]
  refine ⟨fun e => bigramsGo_mem t.head e,
    fun nm cs cn => by rw [bigramsGo, bigramsKids_join], hchain, ?_⟩
  intro e
  rw [hchain]
  simp only [List.mem_cons, List.not_mem_nil, or_false]
  tauto

/-! ### `each_node` enumeration lemmas -/

mutual

/-- Nodes yielded by `each_node` all satisfy the invariant when the
starting node does. -/
theorem eachNodeGo_ok (nd : Node) (v : List String)
    (h : nodeOk nd = true) :
    ∀ x ∈ (eachNodeGo nd v).1, nodeOk x = true := by
  obtain ⟨nm, cs, cn⟩ := nd
  intro x hx
  rw [eachNodeGo] at hx
  by_cases hmem : (Node.mk nm cs cn).name ∈ v
  · rw [if_pos hmem] at hx
    cases hx
  · rw [if_neg hmem] at hx
    rcases List.mem_cons.1 hx with rfl | hx
    · exact h
    · exact eachNodeKids_ok cs _ (nodesOk_iff.2 (nodeOk_children h)) x hx

theorem eachNodeKids_ok (cs : List Node) (v : List String)
    (h : nodesOk cs = true) :
    ∀ x ∈ (eachNodeKids cs v).1, nodeOk x = true := by
  cases cs with
  | nil =>
    intro x hx
    rw [eachNodeKids] at hx
    cases hx
  | cons c rest =>
    intro x hx
    rw [eachNodeKids] at hx
    obtain ⟨hc, hrest⟩ := by simpa [nodesOk, Bool.and_eq_true] using h
    rcases List.mem_append.1 hx with hx | hx
    · exact eachNodeGo_ok c v hc x hx
    · exact eachNodeKids_ok rest _ hrest x hx

end

mutual

/-- When all names in the subtree are distinct and none is already
visited, `each_node` yields exactly the subtree's nodes in pre-order and
marks exactly the subtree's names visited. -/
theorem eachNodeGo_all (nd : Node) (v : List String)
    (hnd : (treeNames nd).Nodup) (hv : ∀ x ∈ treeNames nd, x ∉ v) :
    eachNodeGo nd v = (allNodes nd, (treeNames nd).reverse ++ v) := by
  obtain ⟨nm, cs, cn⟩ := nd
  rw [treeNames] at hnd hv
  have hnm : nm ∉ v := hv nm (List.mem_cons_self _ _)
  have hfresh : ∀ x ∈ treeNamesList cs, x ∉ nm :: v := by
    intro x hx
    rw [List.mem_cons, not_or]
    exact ⟨fun hxnm => (List.nodup_cons.1 hnd).1 (hxnm ▸ hx),
      hv x (List.mem_cons_of_mem _ hx)⟩
  rw [eachNodeGo, if_neg (by simpa using hnm)]
  show (Node.mk nm cs cn :: (eachNodeKids cs ((Node.mk nm cs cn).name :: v)).1,
      (eachNodeKids cs ((Node.mk nm cs cn).name :: v)).2) = _
  rw [Node.name_mk,
    eachNodeKids_all cs (nm :: v) (List.nodup_cons.1 hnd).2 hfresh]
  rw [allNodes, treeNames]
  simp [List.append_assoc]

theorem eachNodeKids_all (cs : List Node) (v : List String)
    (hnd : (treeNamesList cs).Nodup) (hv : ∀ x ∈ treeNamesList cs, x ∉ v) :
    eachNodeKids cs v = (allNodesList cs, (treeNamesList cs).reverse ++ v) := by
  cases cs with
  | nil => rw [eachNodeKids, treeNamesList, allNodesList]; rfl
  | cons c rest =>
    rw [treeNamesList] at hnd hv
    obtain ⟨hnd1, hnd2, hdisj⟩ := List.nodup_append.1 hnd
    have hfresh : ∀ x ∈ treeNamesList rest, x ∉ (treeNames c).reverse ++ v := by
      intro x hx
      rw [List.mem_append, not_or, List.mem_reverse]
      exact ⟨fun hxc => hdisj hxc hx, hv x (List.mem_append_right _ hx)⟩
    rw [eachNodeKids]
    show ((eachNodeGo c v).1 ++ (eachNodeKids rest (eachNodeGo c v).2).1,
      (eachNodeKids rest (eachNodeGo c v).2).2) = _
    rw [eachNodeGo_all c v hnd1 (fun x hx => hv x (List.mem_append_left _ hx))]
    rw [eachNodeKids_all rest ((treeNames c).reverse ++ v) hnd2 hfresh]
    rw [treeNamesList, allNodesList]
    simp [List.append_assoc]

end

/-! ### C8: `to_obj` records over `each_node` -/

/-- C8: every node yielded by `each_node` contributes the record
`(name, children_names)` to `to_serializable`, and — under the C7
invariant — that record's `children` component is exactly the set of the
node's immediate child names; on the concrete 3-node chain A→B→C the
output is exactly the three expected records. -/
theorem to_serializable_records (t : Tree) (h : nodeOk t.head = true) :
    (∀ nd ∈ (t.each_node none none).1,
      (nd.name, nd.children_names) ∈ t.to_serializable ∧
      ∀ x, x ∈ nd.children_names ↔ x ∈ nd.children.map Node.name) ∧
    chainTree.to_serializable = [("A", ["B"]), ("B", ["C"]), ("C", [])] := by
  constructor
  · intro nd hnd
    constructor
    · exact List.mem_map.2 ⟨nd, hnd, rfl⟩
    · have hok : nodeOk nd = true := eachNodeGo_ok t.head [] h nd hnd
      obtain ⟨nm, cs, cn⟩ := nd
      exact (nodeOk_mk_iff.1 hok).2.2.1
  · show ((chainTree.each_node none none).1.map Node.to_obj) = _
    rw [Tree.each_node]
    rw [eachNodeGo_all chainTree.head []
      (by simp [chainTree, treeNames, treeNamesList])
      (by simp)]
    simp [chainTree, allNodes, allNodesList, Node.to_obj]

/-- Witness for C8 on the concrete chain (the invariant hypothesis is
discharged by computation). -/
theorem to_serializable_records_witness :
    chainTree.to_serializable = [("A", ["B"]), ("B", ["C"]), ("C", [])] :=
  (to_serializable_records chainTree
    (by simp [chainTree, nodeOk, nodesOk, nodupB])).2

/-! ### C9: the builder run over resolver events, simulated -/

/-- The effect on the parent of entering and completely building one
fresh child `n`: exactly what `add_child` (fresh branch) followed by the
pop-time sync produces. -/
def appendChild (top n : Node) : Node :=
  match top with
  | .mk nm cs cn => .mk nm (cs ++ [n]) (cn ++ [n.name])

/-- The effect of a whole include loop on the parent: its finished
children appended in order. -/
def mkExt (top : Node) (kids : List Node) : Node :=
  match top with
  | .mk nm cs cn => .mk nm (cs ++ kids) (cn ++ kids.map Node.name)

@[simp] theorem mkExt_nil (top : Node) : mkExt top [] = top := by
  obtain ⟨nm, cs, cn⟩ := top
  simp [mkExt]

theorem mkExt_appendChild (top n : Node) (kids : List Node) :
    mkExt (appendChild top n) kids = mkExt top (n :: kids) := by
  obtain ⟨nm, cs, cn⟩ := top
  simp [mkExt, appendChild]

theorem name_mem_treeNames (n : Node) : n.name ∈ treeNames n := by
  obtain ⟨nm, cs, cn⟩ := n
  rw [treeNames]
  exact List.mem_cons_self _ _

theorem buildStep_enter {top : Node} (rest : List Node) (t : Option Tree)
    {d : String} (hd : d ∉ top.children_names) :
    buildStep (top :: rest, t) (EvType.enter, d) =
      (Node.mk d [] [] :: appendChild top (Node.mk d [] []) :: rest, t) := by
  obtain ⟨nm, cs, cn⟩ := top
  simp only [Node.children_names_mk] at hd
  show ((((Node.mk nm cs cn).add_child d).2.getD (Node.mk d [] [])) ::
      ((Node.mk nm cs cn).add_child d).1 :: rest, t) = _
  rw [Node.add_child, if_pos (by simpa using hd)]
  simp [appendChild]

theorem buildStep_exit (child top : Node) (more : List Node)
    (t : Option Tree) (d : String) :
    buildStep (child :: top :: more, t) (EvType.exit, d) =
      (writeChild child top :: more, some (Tree.mk child)) := rfl

theorem buildStep_exit_single (child : Node) (t : Option Tree) (d : String) :
    buildStep ([child], t) (EvType.exit, d) = ([], some (Tree.mk child)) := rfl

theorem buildStep_enter_empty (t : Option Tree) (d : String) :
    buildStep ([], t) (EvType.enter, d) = ([Node.mk d [] []], t) := rfl

theorem writeChild_appendChild {top n₀ : Node} {d : String}
    (hlin : top.children_names = top.children.map Node.name)
    (hd : d ∉ top.children_names) (hn : n₀.name = d) :
    writeChild n₀ (appendChild top (Node.mk d [] [])) = appendChild top n₀ := by
  obtain ⟨nm, cs, cn⟩ := top
  simp only [Node.children_names_mk, Node.children_mk] at hlin hd
  rw [appendChild, writeChild, appendChild]
  have hmap : (cs ++ [Node.mk d [] []]).map
      (fun x => if x.name = n₀.name then n₀ else x) = cs ++ [n₀] := by
    rw [List.map_append]
    congr 1
    · refine (List.map_congr_left ?_).trans (List.map_id cs)
      intro x hx
      have hxmem : x.name ∈ cn := by
        rw [hlin]
        exact List.mem_map.2 ⟨x, hx, rfl⟩
      have hne : x.name ≠ n₀.name := by
        intro hcontr
        rw [hcontr, hn] at hxmem
        exact hd hxmem
      simp [hne]
    · simp [hn]
  rw [hmap, hn]
  rfl

/-- What one complete traversal block of the resolver does to the
builder: either no events at all, or a single finished node `n` named
after the entered domain, carrying exactly the block's entered names,
appended as a child of whatever node is on top of the stack (or made the
root when the stack is empty), with `Tree(n)` the last tree assigned. -/
def SimNode (r : List Event × List String) (d : String) : Prop :=
  r.1 = [] ∨
  ∃ n : Node, n.name = d ∧ treeNames n = enters r.1 ∧
    (∀ (top : Node) (rest : List Node) (t : Option Tree),
      top.children_names = top.children.map Node.name →
      d ∉ top.children_names →
      r.1.foldl buildStep (top :: rest, t) =
        (appendChild top n :: rest, some (Tree.mk n))) ∧
    (∀ t : Option Tree,
      r.1.foldl buildStep ([], t) = ([], some (Tree.mk n)))

theorem simIncludes (next : String → List String → List Event × List String)
    (hskip : ∀ d v, d ∈ v → next d v = ([], v))
    (hvis : ∀ d v, (next d v).2 = (enters (next d v).1).reverse ++ v)
    (hsim : ∀ d v, d ∉ v → SimNode (next d v) d) :
    ∀ (rs : List String) (v : List String),
      ∃ kids : List Node,
        treeNamesList kids = enters (resolveIncludes next rs v).1 ∧
        ∀ (top : Node) (rest : List Node) (t : Option Tree),
          top.children_names = top.children.map Node.name →
          (∀ y ∈ top.children_names, y ∈ v) →
          ∃ t', (resolveIncludes next rs v).1.foldl buildStep
              (top :: rest, t) = (mkExt top kids :: rest, t') := by
  intro rs
  induction rs with
  | nil =>
    intro v
    refine ⟨[], by rw [treeNamesList]; rfl, ?_⟩
    intro top rest t _ _
    exact ⟨t, by simp [resolveIncludes]⟩
  | cons r rs' ih =>
    intro v
    have hunfold : resolveIncludes next (r :: rs') v =
        ((next ((pySplitOn ':' r).getD 1 "") v).1 ++
          (resolveIncludes next rs'
            (next ((pySplitOn ':' r).getD 1 "") v).2).1,
         (resolveIncludes next rs'
            (next ((pySplitOn ':' r).getD 1 "") v).2).2) := rfl
    set nm := (pySplitOn ':' r).getD 1 "" with hnmdef
    by_cases hnm : nm ∈ v
    · -- the nested call is skipped: no events, visited unchanged
      have hsk := hskip nm v hnm
      obtain ⟨kids, hkn, hkf⟩ := ih v
      refine ⟨kids, ?_, ?_⟩
      · rw [hunfold]
        simp only [hsk, List.nil_append, enters_append, enters_nil]
        exact hkn
      · intro top rest t hlin hsub
        obtain ⟨t', ht'⟩ := hkf top rest t hlin hsub
        refine ⟨t', ?_⟩
        rw [hunfold]
        simpa [hsk] using ht'
    · rcases hsim nm v hnm with hnil | ⟨n, hname, hnames, hfold, -⟩
      · -- no events from the nested call (fuel exhaustion)
        have hv1 : (next nm v).2 = v := by rw [hvis, hnil]; rfl
        obtain ⟨kids, hkn, hkf⟩ := ih v
        refine ⟨kids, ?_, ?_⟩
        · rw [hunfold, hv1]
          simp only [hnil, List.nil_append, enters_append, enters_nil]
          exact hkn
        · intro top rest t hlin hsub
          obtain ⟨t', ht'⟩ := hkf top rest t hlin hsub
          refine ⟨t', ?_⟩
          rw [hunfold, hv1]
          simpa [hnil] using ht'
      · -- the nested call builds a finished node n
        obtain ⟨kids', hkn', hkf'⟩ := ih (next nm v).2
        refine ⟨n :: kids', ?_, ?_⟩
        · rw [hunfold, treeNamesList, hnames, hkn']
          simp
        · intro top rest t hlin hsub
          have hdcn : nm ∉ top.children_names := fun hc => hnm (hsub nm hc)
          have hlin' : (appendChild top n).children_names =
              (appendChild top n).children.map Node.name := by
            obtain ⟨tn, tcs, tcn⟩ := top
            simp only [appendChild, Node.children_names_mk, Node.children_mk,
              List.map_append] at hlin ⊢
            rw [hlin]
            simp
          have hsub' : ∀ y ∈ (appendChild top n).children_names,
              y ∈ (next nm v).2 := by
            obtain ⟨tn, tcs, tcn⟩ := top
            intro y hy
            rw [hvis]
            simp only [appendChild, Node.children_names_mk] at hy
            rcases List.mem_append.1 hy with hy | hy
            · exact List.mem_append_right _ (hsub y hy)
            · rw [List.mem_singleton.1 hy]
              refine List.mem_append_left _ ?_
              rw [List.mem_reverse, ← hnames]
              exact name_mem_treeNames n
          obtain ⟨t', ht'⟩ := hkf' (appendChild top n) rest
            (some (Tree.mk n)) hlin' hsub'
          refine ⟨t', ?_⟩
          rw [hunfold]
          show ((next nm v).1 ++ _).foldl buildStep (top :: rest, t) = _
          rw [List.foldl_append, hfold top rest t hlin hdcn, ht',
            mkExt_appendChild]

/-- Each resolver call behaves on the builder as one complete block. -/
theorem simCall (dns : Dns) :
    ∀ (fuel : Nat) (d : String) (v : List String),
      (d ∈ v → call dns fuel d (some v) = ([], v)) ∧
      (d ∉ v → SimNode (call dns fuel d (some v)) d) := by
  intro fuel
  induction fuel with
  | zero => intro d v; exact ⟨fun _ => rfl, fun _ => Or.inl rfl⟩
  | succ fuel ih =>
    intro d v
    refine ⟨fun h => call_succ_mem dns fuel h, fun hd => ?_⟩
    cases hdns : dns d with
    | none =>
      rw [call_succ_fail dns fuel hd hdns]
      refine Or.inr ⟨Node.mk d [] [], rfl,
        by rw [treeNames, treeNamesList]; rfl, ?_, ?_⟩
      · intro top rest t hlin hdcn
        rw [show ([(EvType.enter, d), (EvType.exit, d)] : List Event).foldl
            buildStep (top :: rest, t) =
          buildStep (buildStep (top :: rest, t) (EvType.enter, d))
            (EvType.exit, d) from rfl]
        rw [buildStep_enter rest t hdcn, buildStep_exit,
          writeChild_appendChild hlin hdcn (Node.name_mk d [] [])]
      · intro t
        rw [show ([(EvType.enter, d), (EvType.exit, d)] : List Event).foldl
            buildStep ([], t) =
          buildStep (buildStep (([] : List Node), t) (EvType.enter, d))
            (EvType.exit, d) from rfl]
        rw [buildStep_enter_empty, buildStep_exit_single]
    | some answers =>
      rw [call_succ_found dns fuel hd hdns]
      obtain ⟨kids, hkn, hkf⟩ :=
        simIncludes (fun n w => call dns fuel n (some w))
          (fun d' v' h => (ih d' v').1 h)
          (fun d' v' => call_visited dns fuel d' v')
          (fun d' v' h => (ih d' v').2 h)
          ((pySplitWs ((find is_spf (answers.map to_text)).getD "")).filter
            is_include)
          (d :: v)
      set inner := (resolveIncludes (fun n w => call dns fuel n (some w))
        ((pySplitWs ((find is_spf (answers.map to_text)).getD "")).filter
          is_include) (d :: v)).1 with hinner
      refine Or.inr ⟨Node.mk d kids (kids.map Node.name), rfl, ?_, ?_, ?_⟩
      · rw [treeNames, hkn]
        simp
      · intro top rest t hlin hdcn
        obtain ⟨t', ht'⟩ := hkf (Node.mk d [] [])
          (appendChild top (Node.mk d [] []) :: rest) t (by simp) (by simp)
        have hsplit : ((EvType.enter, d) :: inner ++ [(EvType.exit, d)] :
            List Event).foldl buildStep (top :: rest, t) =
            buildStep (inner.foldl buildStep
              (buildStep (top :: rest, t) (EvType.enter, d)))
              (EvType.exit, d) := by
          rw [List.foldl_append, List.foldl_cons, List.foldl_cons,
            List.foldl_nil]
        rw [hsplit, buildStep_enter rest t hdcn, ht']
        rw [show mkExt (Node.mk d [] []) kids =
            Node.mk d kids (kids.map Node.name) from by simp [mkExt]]
        rw [buildStep_exit,
          writeChild_appendChild hlin hdcn
            (Node.name_mk d kids (kids.map Node.name))]
      · intro t
        obtain ⟨t', ht'⟩ := hkf (Node.mk d [] []) [] t (by simp) (by simp)
        have hsplit : ((EvType.enter, d) :: inner ++ [(EvType.exit, d)] :
            List Event).foldl buildStep ([], t) =
            buildStep (inner.foldl buildStep
              (buildStep (([] : List Node), t) (EvType.enter, d)))
              (EvType.exit, d) := by
          rw [List.foldl_append, List.foldl_cons, List.foldl_cons,
            List.foldl_nil]
        rw [hsplit, buildStep_enter_empty, ht']
        rw [show mkExt (Node.mk d [] []) kids =
            Node.mk d kids (kids.map Node.name) from by simp [mkExt]]
        rw [buildStep_exit_single]

/-- C9: in every tree returned by `build`, the node names are globally
distinct — the visited set is shared across all branches of one
traversal, so a domain reachable twice is entered only once and becomes
a node only under the first parent reaching it — and consequently
`each_node` yields every node of the tree exactly once (its output is
exactly the full pre-order node list). -/
theorem built_tree_names_distinct (dns : Dns) (fuel : Nat) (d : String)
    (t : Tree) (h : TreeBuilder.build dns fuel d = some t) :
    (treeNames t.head).Nodup ∧ (t.each_node none none).1 = allNodes t.head := by
  have hbuild : (buildRun (call dns fuel d (some [])).1).2 = some t := by
    rw [show (buildRun (call dns fuel d (some [])).1).2 =
      TreeBuilder.build dns fuel d from by
        rw [TreeBuilder.build, call_none_eq_some_nil]]
    exact h
  rcases (simCall dns fuel d []).2 (by simp) with hnil |
    ⟨n, hname, hnames, hfold, hfold0⟩
  · rw [buildRun, hnil] at hbuild
    cases hbuild
  · rw [buildRun, hfold0 none] at hbuild
    obtain rfl : Tree.mk n = t := Option.some.inj hbuild
    have hnodup : (treeNames (Tree.mk n).head).Nodup := by
      show (treeNames n).Nodup
      rw [hnames]
      exact (call_enters_fresh dns fuel d []).2
    refine ⟨hnodup, ?_⟩
    show (eachNodeGo n []).1 = allNodes n
    rw [eachNodeGo_all n [] hnodup (by simp)]

/-- Witness for C9 on the concrete cyclic example. -/
theorem built_tree_names_distinct_witness :
    (treeNames (Tree.mk (Node.mk "A" [Node.mk "B" [] []] ["B"])).head).Nodup ∧
    ((Tree.mk (Node.mk "A" [Node.mk "B" [] []] ["B"])).each_node none none).1 =
      allNodes (Tree.mk (Node.mk "A" [Node.mk "B" [] []] ["B"])).head :=
  built_tree_names_distinct dnsCyc 3 "A"
    (Tree.mk (Node.mk "A" [Node.mk "B" [] []] ["B"])) (by rfl)

/-! ### C2: the include-term extraction -/

/-- Transcribed from the spec's words for C2: "extract the substring
after the colon as the nested domain name" — everything after the first
colon of the term. -/
def nestedNameSpec (term : String) : String :=
  String.mk ((term.toList.dropWhile (fun c => c ≠ ':')).drop 1)

/-- The extraction the code performs: `record.split(':')[1]`, i.e. the
field between the first and the second colon of the term. -/
def nestedNameCode (record : String) : String :=
  (pySplitOn ':' record).getD 1 ""

/-- Concrete DNS behavior whose SPF record has an include term that
itself contains a second colon. -/
def dnsC2 : Dns := fun d =>
  if d = "d" then some ["v=spf1 include:a:b"] else none

/-- C2 counterexample: on the term `include:a:b` the code recurses on
`"a"` (the field between the colons), not on `"a:b"` (the substring
after the colon, as the claim states): the run on `dnsC2` enters `"a"`
and never enters `"a:b"`. -/
theorem include_extraction_counterexample :
    nestedNameCode "include:a:b" = "a" ∧
    nestedNameSpec "include:a:b" = "a:b" ∧
    (call dnsC2 2 "d" none).1 =
      [(EvType.enter, "d"), (EvType.enter, "a"), (EvType.exit, "a"),
       (EvType.exit, "d")] ∧
    (EvType.enter, nestedNameSpec "include:a:b") ∉ (call dnsC2 2 "d" none).1 := by
  exact ⟨by decide, by decide, by decide, by decide⟩

/-- C2 (amended): on a successful TXT lookup the resolver selects the
first record whose text, after stripping surrounding quotes, starts with
`v=spf1` (the `find is_spf` characterization below states first-ness;
the default is the empty string), splits it into whitespace-delimited
terms, and for every term starting with `include:` extracts the *field
between the first and second colons* (`record.split(':')[1]`) as the
nested domain, recursively resolves it, and re-emits all of its events,
in order, before the next include term, all inside the surrounding
`enter`/`exit` pair. -/
theorem resolver_success_step (dns : Dns) (fuel : Nat) (d : String)
    (v : List String) (answers : List String) (hv : d ∉ v)
    (hdns : dns d = some answers) :
    (call dns (fuel+1) d (some v)).1 =
      (EvType.enter, d) ::
        (resolveIncludes (fun n w => call dns fuel n (some w))
          ((pySplitWs ((find is_spf (answers.map to_text)).getD "")).filter
            is_include) (d :: v)).1 ++ [(EvType.exit, d)] ∧
    (∀ (record : String) (rest w : List String),
      resolveIncludes (fun n w => call dns fuel n (some w)) (record :: rest) w =
        ((call dns fuel (nestedNameCode record) (some w)).1 ++
          (resolveIncludes (fun n w => call dns fuel n (some w)) rest
            (call dns fuel (nestedNameCode record) (some w)).2).1,
         (resolveIncludes (fun n w => call dns fuel n (some w)) rest
            (call dns fuel (nestedNameCode record) (some w)).2).2)) ∧
    (∀ (l : List String) (y : String), find is_spf l = some y ↔
      ∃ l₁ l₂, l = l₁ ++ y :: l₂ ∧ (∀ x ∈ l₁, is_spf x = false) ∧
        is_spf y = true) := by
  refine ⟨?_, fun record rest w => rfl, fun l y => find_eq_some_iff⟩
  rw [call_succ_found dns fuel hv hdns]

/-- Witness for C2's amended statement at a concrete input. -/
theorem resolver_success_step_witness :
    (call dnsC2 2 "d" (some [])).1 =
      (EvType.enter, "d") ::
        (resolveIncludes (fun n w => call dnsC2 1 n (some w))
          ((pySplitWs ((find is_spf ((["v=spf1 include:a:b"]).map
            to_text)).getD "")).filter is_include) ("d" :: [])).1 ++
        [(EvType.exit, "d")] :=
  (resolver_success_step dnsC2 1 "d" [] ["v=spf1 include:a:b"] (by simp)
    (by decide)).1

/-! ### C10: an explicitly supplied empty visited set -/

/-- The contents of the *caller's* set object after
`resolve(domain, visited)`: when the argument is `None` there is no such
object; when it is a falsy (empty) set, the body's
`if not visited: visited = set()` rebinds the local name to a fresh set,
so the caller's object is never touched; only a non-empty set is the
very object the body mutates and threads through the traversal. -/
def callerVisitedAfter (dns : Dns) (fuel : Nat) (d : String)
    (arg : Option (List String)) : Option (List String) :=
  match arg with
  | none => none
  | some s => if s = [] then some s else some (call dns fuel d (some s)).2

/-- Same for `Tree.each_node`, whose `visited` guard is identical. -/
def eachNodeCallerVisitedAfter (t : Tree) (arg : Option (List String))
    (argN : Option Node) : Option (List String) :=
  match arg with
  | none => none
  | some s => if s = [] then some s else some (t.each_node (some s) argN).2

/-- C10: passing an explicitly empty set to `resolve` (and to
`each_node`) behaves exactly like passing no argument — the truthiness
guard allocates a fresh set either way, the caller's empty set is left
unchanged — while a non-empty supplied set really is threaded through
(it determines behavior: a domain already in it is skipped and the
caller's set is the traversal's working set). -/
theorem empty_visited_behaves_as_default :
    (∀ (dns : Dns) (fuel : Nat) (d : String),
      call dns fuel d (some []) = call dns fuel d none) ∧
    (∀ (dns : Dns) (fuel : Nat) (d : String),
      callerVisitedAfter dns fuel d (some []) = some []) ∧
    (∀ (dns : Dns) (fuel : Nat) (d : String) (s : List String), d ∈ s →
      call dns (fuel+1) d (some s) = ([], s)) ∧
    (∀ (t : Tree) (argN : Option Node),
      t.each_node (some []) argN = t.each_node none argN) ∧
    (∀ (t : Tree) (argN : Option Node),
      eachNodeCallerVisitedAfter t (some []) argN = some []) ∧
    (∀ (t : Tree) (nd : Node) (s : List String), nd.name ∈ s →
      t.each_node (some s) (some nd) = ([], s)) := by
  refine ⟨fun dns fuel d => (call_none_eq_some_nil dns fuel d).symm,
    fun dns fuel d => rfl,
    fun dns fuel d s h => call_succ_mem dns fuel h,
    fun t argN => rfl,
    fun t argN => rfl,
    fun t nd s h => ?_⟩
  have hs : s ≠ [] := List.ne_nil_of_mem h
  rw [Tree.each_node]
  show eachNodeGo nd (if s = [] then [] else s) = ([], s)
  rw [if_neg hs]
  obtain ⟨nm, cs, cn⟩ := nd
  rw [eachNodeGo, if_pos (by simpa using h)]

/-- Witness for C10's hypothesis-bearing parts at concrete inputs. -/
theorem empty_visited_behaves_as_default_witness :
    call dnsNone 1 "x" (some ["x"]) = ([], ["x"]) ∧
    chainTree.each_node (some ["A"]) (some chainTree.head) = ([], ["A"]) :=
  ⟨empty_visited_behaves_as_default.2.2.1 dnsNone 0 "x" ["x"] (by decide),
   empty_visited_behaves_as_default.2.2.2.2.2 chainTree chainTree.head ["A"]
     (by decide)⟩

end SpfDigraph
